import Mathlib

/-!
Verification of the RegexRuleFinder core (`main.py`): a pipeline that
tokenizes input strings into prefix/words/delimiters/suffix records,
groups records by structural type, classifies the words at each position,
and assembles one anchored regular-expression pattern.

Strings are modelled as `List Char`.  Python dicts are modelled as
insertion-ordered association lists (Python 3.7+ dicts preserve insertion
order).  Exceptions (assertion failures, `max` of an empty list) are
modelled with `Option`.
-/

/-- Conversion helper: a Lean string literal to the `List Char` model. -/
def lstr (s : String) : List Char := s.toList

/-- Membership of a character in the class `[0-9a-zA-Z]` used by the
tokenizer regexes `PREFIX_RE` and `WORD_RE`. -/
def isAlnum (c : Char) : Bool :=
  (('0' ≤ c && c ≤ '9') || ('a' ≤ c && c ≤ 'z')) || ('A' ≤ c && c ≤ 'Z')

/-- The tokenized record produced by `SentenceSplit` (field `prefix` of the
source is named `pfx` here). -/
structure SentenceSplit where
  pfx : List Char
  suffix : List Char
  words : List (List Char)
  delimiters : List (List Char)
  deriving Repr, DecidableEq

theorem dropWhile_length_le (p : Char → Bool) (l : List Char) :
    (l.dropWhile p).length ≤ l.length := by
  induction l with
  | nil => simp [List.dropWhile]
  | cons c t ih =>
    by_cases hc : p c
    · simp only [List.dropWhile, hc]
      exact Nat.le_succ_of_le ih
    · simp [List.dropWhile, hc]

theorem split_step_length_lt (s : List Char) (hs : s ≠ []) :
    ((s.dropWhile isAlnum).dropWhile (fun c => !isAlnum c)).length < s.length := by
  rcases s with _ | ⟨c, t⟩
  · exact absurd rfl hs
  · by_cases hc : isAlnum c
    · have h1 : (c :: t).dropWhile isAlnum = t.dropWhile isAlnum := by
        simp [List.dropWhile, hc]
      calc (((c :: t).dropWhile isAlnum).dropWhile (fun c => !isAlnum c)).length
          ≤ ((c :: t).dropWhile isAlnum).length := dropWhile_length_le _ _
        _ = (t.dropWhile isAlnum).length := by rw [h1]
        _ ≤ t.length := dropWhile_length_le _ _
        _ < (c :: t).length := by simp
    · have h1 : (c :: t).dropWhile isAlnum = c :: t := by
        simp [List.dropWhile, hc]
      have h2 : ((c :: t).dropWhile isAlnum).dropWhile (fun c => !isAlnum c)
          = t.dropWhile (fun c => !isAlnum c) := by
        rw [h1]; simp [List.dropWhile, hc]
      calc (((c :: t).dropWhile isAlnum).dropWhile (fun c => !isAlnum c)).length
          = (t.dropWhile (fun c => !isAlnum c)).length := by rw [h2]
        _ ≤ t.length := dropWhile_length_le _ _
        _ < (c :: t).length := by simp

/-- Fuel-driven form of the word/delimiter extraction loop of
`SentenceSplit.split`: repeatedly take the maximal leading `[0-9a-zA-Z]*`
run as a word, then the maximal leading `[^0-9a-zA-Z]*` run as a delimiter,
until nothing remains.  The fuel only drives structural recursion; any fuel
above the input length realizes the loop's behaviour. -/
def splitWordsAux : Nat → List Char → List (List Char) × List (List Char)
  | 0, _ => ([], [])
  | fuel + 1, s =>
    if s = [] then ([], [])
    else
      let w := s.takeWhile isAlnum
      let r := s.dropWhile isAlnum
      if r = [] then ([w], [])
      else
        let d := r.takeWhile (fun c => !isAlnum c)
        let r2 := r.dropWhile (fun c => !isAlnum c)
        let p := splitWordsAux fuel r2
        (w :: p.1, d :: p.2)

/-- The word/delimiter extraction loop of `SentenceSplit.split`. -/
def splitWords (s : List Char) : List (List Char) × List (List Char) :=
  splitWordsAux (s.length + 1) s

theorem splitWordsAux_fuel : ∀ (f1 f2 : Nat) (s : List Char),
    s.length < f1 → s.length < f2 → splitWordsAux f1 s = splitWordsAux f2 s := by
  intro f1
  induction f1 with
  | zero => intro f2 s h1; exact absurd h1 (Nat.not_lt_zero _)
  | succ f1 ih =>
    intro f2 s h1 h2
    rcases f2 with _ | f2
    · exact absurd h2 (Nat.not_lt_zero _)
    · by_cases hs : s = []
      · subst hs; rfl
      · show splitWordsAux (f1 + 1) s = splitWordsAux (f2 + 1) s
        rw [splitWordsAux, splitWordsAux]
        simp only [if_neg hs]
        by_cases hr : s.dropWhile isAlnum = []
        · rw [if_pos hr, if_pos hr]
        · rw [if_neg hr, if_neg hr]
          have hlt := split_step_length_lt s hs
          have hrec := ih f2 ((s.dropWhile isAlnum).dropWhile (fun c => !isAlnum c))
            (by omega) (by omega)
          rw [hrec]

/-- One-step unfolding of `splitWords`, mirroring one iteration of the
source's extraction loop. -/
theorem splitWords_eq (s : List Char) :
    splitWords s =
      if s = [] then ([], [])
      else
        if s.dropWhile isAlnum = [] then ([s.takeWhile isAlnum], [])
        else
          (s.takeWhile isAlnum ::
            (splitWords ((s.dropWhile isAlnum).dropWhile (fun c => !isAlnum c))).1,
           (s.dropWhile isAlnum).takeWhile (fun c => !isAlnum c) ::
            (splitWords ((s.dropWhile isAlnum).dropWhile (fun c => !isAlnum c))).2) := by
  show splitWordsAux (s.length + 1) s = _
  rw [splitWordsAux]
  by_cases hs : s = []
  · rw [if_pos hs, if_pos hs]
  · rw [if_neg hs, if_neg hs]
    by_cases hr : s.dropWhile isAlnum = []
    · rw [if_pos hr, if_pos hr]
    · rw [if_neg hr, if_neg hr]
      have hlt := split_step_length_lt s hs
      have hfu := splitWordsAux_fuel s.length
        (((s.dropWhile isAlnum).dropWhile (fun c => !isAlnum c)).length + 1)
        ((s.dropWhile isAlnum).dropWhile (fun c => !isAlnum c))
        (by omega) (by omega)
      show (_ :: (splitWordsAux s.length _).1, _ :: (splitWordsAux s.length _).2) = _
      rw [hfu]
      rfl

/-- Induction principle following the recursion of the extraction loop. -/
theorem splitWords_ind (motive : List Char → Prop)
    (base : motive [])
    (last : ∀ s, s ≠ [] → s.dropWhile isAlnum = [] → motive s)
    (step : ∀ s, s ≠ [] → s.dropWhile isAlnum ≠ [] →
      motive ((s.dropWhile isAlnum).dropWhile (fun c => !isAlnum c)) → motive s) :
    ∀ s, motive s := by
  suffices h : ∀ n s, s.length = n → motive s by
    exact fun s => h s.length s rfl
  intro n
  induction n using Nat.strong_induction_on with
  | _ n ih =>
    intro s hn
    by_cases hs : s = []
    · subst hs; exact base
    · by_cases hr : s.dropWhile isAlnum = []
      · exact last s hs hr
      · refine step s hs hr ?_
        have hlt := split_step_length_lt s hs
        exact ih (((s.dropWhile isAlnum).dropWhile (fun c => !isAlnum c)).length)
          (by omega) _ rfl

/-- Model of `SentenceSplit.split`: strip the maximal leading non-alnum run
into the prefix, the maximal trailing non-alnum run into the suffix
(via the reversal trick of the source), then run the word/delimiter loop. -/
def SentenceSplit.split (s : List Char) : SentenceSplit :=
  let p := s.takeWhile (fun c => !isAlnum c)
  let r1 := s.dropWhile (fun c => !isAlnum c)
  let suf := (r1.reverse.takeWhile (fun c => !isAlnum c)).reverse
  let core := (r1.reverse.dropWhile (fun c => !isAlnum c)).reverse
  let wd := splitWords core
  ⟨p, suf, wd.1, wd.2⟩

/-- The interleaving loop of `SentenceSplit.sentence`: append each word,
and after word `i` append delimiter `i` when it exists. -/
def interleave : List (List Char) → List (List Char) → List Char
  | [], _ => []
  | w :: ws, [] => w ++ interleave ws []
  | w :: ws, d :: ds => w ++ d ++ interleave ws ds

/-- Model of `SentenceSplit.sentence`: the reconstructed original string. -/
def SentenceSplit.sentence (sp : SentenceSplit) : List Char :=
  sp.pfx ++ interleave sp.words sp.delimiters ++ sp.suffix

/-- Model of `SentenceSplit.words_num`. -/
def SentenceSplit.words_num (sp : SentenceSplit) : Nat := sp.words.length

theorem interleave_splitWords (s : List Char) :
    interleave (splitWords s).1 (splitWords s).2 = s := by
  induction s using splitWords_ind with
  | base => simp [splitWords, splitWordsAux, interleave]
  | last x hx h =>
    rw [splitWords_eq]
    simp only [if_neg hx, if_pos h, interleave]
    have h2 := List.takeWhile_append_dropWhile (p := isAlnum) (l := x)
    rw [h, List.append_nil] at h2
    simpa using h2
  | step x hx h ih =>
    rw [splitWords_eq]
    simp only [if_neg hx, if_neg h, interleave]
    rw [ih]
    rw [List.append_assoc, List.takeWhile_append_dropWhile,
      List.takeWhile_append_dropWhile]

/-- C2: for every input string, interleaving the prefix, words, delimiters
and suffix of the record produced by `SentenceSplit.split` (that is,
`SentenceSplit.sentence`) reproduces the input exactly. -/
theorem split_sentence_roundtrip (s : List Char) :
    (SentenceSplit.split s).sentence = s := by
  unfold SentenceSplit.split SentenceSplit.sentence
  simp only [interleave_splitWords]
  rw [List.append_assoc]
  have h1 : (List.dropWhile (fun c => !isAlnum c)
        (List.dropWhile (fun c => !isAlnum c) s).reverse).reverse ++
      (List.takeWhile (fun c => !isAlnum c)
        (List.dropWhile (fun c => !isAlnum c) s).reverse).reverse =
      List.dropWhile (fun c => !isAlnum c) s := by
    rw [← List.reverse_append, List.takeWhile_append_dropWhile, List.reverse_reverse]
  rw [h1, List.takeWhile_append_dropWhile]

theorem takeWhile_ne_nil_of_head (p : Char → Bool) (c : Char) (t : List Char)
    (hp : p c = true) : (c :: t).takeWhile p ≠ [] := by
  simp [List.takeWhile_cons, hp]

theorem splitWords_content (s : List Char) :
    (∀ w ∈ (splitWords s).1, w.all isAlnum = true) ∧
    (∀ d ∈ (splitWords s).2, d ≠ [] ∧ d.all (fun c => !isAlnum c) = true) := by
  induction s using splitWords_ind with
  | base => simp [splitWords, splitWordsAux]
  | last x hx h =>
    rw [splitWords_eq]; simp only [if_neg hx, if_pos h]
    refine ⟨?_, ?_⟩
    · intro w hw
      simp only [List.mem_singleton] at hw
      subst hw; exact List.all_takeWhile
    · intro d hd
      simp at hd
  | step x hx h ih =>
    rw [splitWords_eq]; simp only [if_neg hx, if_neg h]
    refine ⟨?_, ?_⟩
    · intro w hw
      rcases List.mem_cons.mp hw with h1 | h1
      · subst h1; exact List.all_takeWhile
      · exact ih.1 w h1
    · intro d hd
      rcases List.mem_cons.mp hd with h1 | h1
      · subst h1
        refine ⟨?_, List.all_takeWhile⟩
        rcases hc : List.dropWhile isAlnum x with _ | ⟨c, t⟩
        · exact absurd hc h
        · have hnot := List.head?_dropWhile_not isAlnum x
          rw [hc] at hnot
          simp only [List.head?_cons] at hnot
          show (c :: t).takeWhile (fun c => !isAlnum c) ≠ []
          exact takeWhile_ne_nil_of_head _ _ _ (by simp [hnot])
      · exact ih.2 d h1

theorem splitWords_words_ne_nil (s : List Char) :
    (∀ c, s.head? = some c → isAlnum c = true) →
    ∀ w ∈ (splitWords s).1, w ≠ [] := by
  induction s using splitWords_ind with
  | base => intro _; simp [splitWords, splitWordsAux]
  | last x hx h =>
    intro hh w hw
    rw [splitWords_eq] at hw; simp only [if_neg hx, if_pos h] at hw
    simp only [List.mem_singleton] at hw
    subst hw
    rcases x with _ | ⟨c, t⟩
    · exact absurd rfl hx
    · exact takeWhile_ne_nil_of_head _ _ _ (hh c rfl)
  | step x hx h ih =>
    intro hh w hw
    rw [splitWords_eq] at hw; simp only [if_neg hx, if_neg h] at hw
    rcases List.mem_cons.mp hw with h1 | h1
    · subst h1
      rcases x with _ | ⟨c, t⟩
      · exact absurd rfl hx
      · exact takeWhile_ne_nil_of_head _ _ _ (hh c rfl)
    · refine ih ?_ w h1
      intro c hc
      have hnot := List.head?_dropWhile_not (fun c => !isAlnum c) (x.dropWhile isAlnum)
      rw [hc] at hnot
      simpa using hnot

theorem splitWords_length (s : List Char) :
    s ≠ [] → (∀ c, s.getLast? = some c → isAlnum c = true) →
    (splitWords s).1.length = (splitWords s).2.length + 1 := by
  induction s using splitWords_ind with
  | base => intro h; exact absurd rfl h
  | last x hx h =>
    intro _ _
    rw [splitWords_eq]; simp only [if_neg hx, if_pos h]
    simp
  | step x hx h ih =>
    intro _ hl
    have hxdecomp : List.takeWhile isAlnum x ++ List.dropWhile isAlnum x = x :=
      List.takeWhile_append_dropWhile _ _
    have hlr : ∀ c, (List.dropWhile isAlnum x).getLast? = some c → isAlnum c = true := by
      intro c hc
      refine hl c ?_
      rw [← hxdecomp, List.getLast?_append_of_ne_nil _ h, hc]
    have hr2 : (List.dropWhile isAlnum x).dropWhile (fun c => !isAlnum c) ≠ [] := by
      intro habs
      have hdecomp2 : List.takeWhile (fun c => !isAlnum c) (List.dropWhile isAlnum x) ++
          List.dropWhile (fun c => !isAlnum c) (List.dropWhile isAlnum x) =
          List.dropWhile isAlnum x := List.takeWhile_append_dropWhile _ _
      rw [habs, List.append_nil] at hdecomp2
      rcases hc : (List.dropWhile isAlnum x).getLast? with _ | c
      · rw [List.getLast?_eq_none_iff] at hc
        exact h hc
      · have hmem := List.mem_of_mem_getLast? hc
        rw [← hdecomp2] at hmem
        have hbad := List.mem_takeWhile_imp hmem
        rw [hlr c hc] at hbad
        simp at hbad
    have hlr2 : ∀ c, ((List.dropWhile isAlnum x).dropWhile
        (fun c => !isAlnum c)).getLast? = some c → isAlnum c = true := by
      intro c hc
      refine hlr c ?_
      have hdecomp2 : List.takeWhile (fun c => !isAlnum c) (List.dropWhile isAlnum x) ++
          List.dropWhile (fun c => !isAlnum c) (List.dropWhile isAlnum x) =
          List.dropWhile isAlnum x := List.takeWhile_append_dropWhile _ _
      rw [← hdecomp2, List.getLast?_append_of_ne_nil _ hr2]
      exact hc
    have h2 := ih hr2 hlr2
    rw [splitWords_eq]; simp only [if_neg hx, if_neg h, List.length_cons]
    omega

theorem dropWhile_head?_not (p : Char → Bool) (l : List Char) (c : Char)
    (hc : (l.dropWhile p).head? = some c) : p c = false := by
  have hnot := List.head?_dropWhile_not p l
  rw [hc] at hnot
  exact hnot

/-- Head character of the core (prefix- and suffix-stripped) remainder
inside `SentenceSplit.split` is alphanumeric. -/
theorem split_core_head (s : List Char) (c : Char)
    (hc : (((s.dropWhile (fun c => !isAlnum c)).reverse.dropWhile
      (fun c => !isAlnum c)).reverse).head? = some c) : isAlnum c = true := by
  rw [List.head?_reverse] at hc
  have hX : (s.dropWhile (fun c => !isAlnum c)).reverse.dropWhile
      (fun c => !isAlnum c) ≠ [] := by
    intro habs; rw [habs] at hc; simp at hc
  have hdec : ((s.dropWhile (fun c => !isAlnum c)).reverse.takeWhile
        (fun c => !isAlnum c)) ++
      ((s.dropWhile (fun c => !isAlnum c)).reverse.dropWhile
        (fun c => !isAlnum c)) =
      (s.dropWhile (fun c => !isAlnum c)).reverse :=
    List.takeWhile_append_dropWhile _ _
  have h1 : (s.dropWhile (fun c => !isAlnum c)).reverse.getLast? = some c := by
    rw [← hdec, List.getLast?_append_of_ne_nil _ hX]
    exact hc
  rw [List.getLast?_reverse] at h1
  have h3 := dropWhile_head?_not (fun c => !isAlnum c) s c h1
  simpa using h3

/-- Last character of the core remainder inside `SentenceSplit.split` is
alphanumeric. -/
theorem split_core_last (s : List Char) (c : Char)
    (hc : (((s.dropWhile (fun c => !isAlnum c)).reverse.dropWhile
      (fun c => !isAlnum c)).reverse).getLast? = some c) : isAlnum c = true := by
  rw [List.getLast?_reverse] at hc
  have h3 := dropWhile_head?_not (fun c => !isAlnum c)
    (s.dropWhile (fun c => !isAlnum c)).reverse c hc
  simpa using h3

/-- C3: structural invariant of `SentenceSplit.split`: the word count equals
the delimiter count plus one when words exist (so `delimiters` is empty when
`words` is), every word is a non-empty run of `[0-9a-zA-Z]` characters, and
every delimiter is a non-empty run of characters outside `[0-9a-zA-Z]`
(so the word runs are maximal). -/
theorem split_invariants (s : List Char) :
    ((SentenceSplit.split s).words.length = (SentenceSplit.split s).delimiters.length +
      (if (SentenceSplit.split s).words.isEmpty then 0 else 1)) ∧
    (∀ w ∈ (SentenceSplit.split s).words, w ≠ [] ∧ w.all isAlnum = true) ∧
    (∀ d ∈ (SentenceSplit.split s).delimiters, d ≠ [] ∧ d.all (fun c => !isAlnum c) = true) := by
  have hwords : (SentenceSplit.split s).words = (splitWords
      (((s.dropWhile (fun c => !isAlnum c)).reverse.dropWhile
        (fun c => !isAlnum c)).reverse)).1 := rfl
  have hdelims : (SentenceSplit.split s).delimiters = (splitWords
      (((s.dropWhile (fun c => !isAlnum c)).reverse.dropWhile
        (fun c => !isAlnum c)).reverse)).2 := rfl
  rw [hwords, hdelims]
  refine ⟨?_, ?_, ?_⟩
  · by_cases hcore : ((s.dropWhile (fun c => !isAlnum c)).reverse.dropWhile
        (fun c => !isAlnum c)).reverse = []
    · rw [hcore]
      simp [splitWords, splitWordsAux]
    · have hlen := splitWords_length _ hcore (fun c hc => split_core_last s c hc)
      have hne : (splitWords (((s.dropWhile (fun c => !isAlnum c)).reverse.dropWhile
          (fun c => !isAlnum c)).reverse)).1 ≠ [] := by
        intro habs
        rw [habs] at hlen
        simp at hlen
      rw [hlen, if_neg (by simpa [List.isEmpty_iff] using hne)]
  · intro w hw
    exact ⟨splitWords_words_ne_nil _ (fun c hc => split_core_head s c hc) w hw,
      (splitWords_content _).1 w hw⟩
  · intro d hd
    exact (splitWords_content _).2 d hd
/-- Model of `"D".join(delimiters)` as used by `SentenceSplit.type`. -/
def joinD : List (List Char) → List Char
  | [] => []
  | [d] => d
  | d :: ds => d ++ 'D' :: joinD ds

/-- Model of `SentenceSplit.type`: the structural grouping key
`"P" + prefix + "S" + suffix + "D" + "D".join(delimiters)`. -/
def SentenceSplit.type (sp : SentenceSplit) : List Char :=
  'P' :: (sp.pfx ++ ('S' :: (sp.suffix ++ ('D' :: joinD sp.delimiters))))

theorem append_sep_inj (x : Char) (a1 : List Char) :
    ∀ (a2 b1 b2 : List Char), (∀ c ∈ a1, c ≠ x) → (∀ c ∈ a2, c ≠ x) →
    a1 ++ x :: b1 = a2 ++ x :: b2 → a1 = a2 ∧ b1 = b2 := by
  induction a1 with
  | nil =>
    intro a2 b1 b2 _ h2 heq
    cases a2 with
    | nil => simpa using heq
    | cons c t =>
      simp only [List.nil_append, List.cons_append, List.cons.injEq] at heq
      exact absurd heq.1.symm (h2 c (List.mem_cons_self c t))
  | cons c t ih =>
    intro a2 b1 b2 h1 h2 heq
    cases a2 with
    | nil =>
      simp only [List.nil_append, List.cons_append, List.cons.injEq] at heq
      exact absurd heq.1 (h1 c (List.mem_cons_self c t))
    | cons c' t' =>
      simp only [List.cons_append, List.cons.injEq] at heq
      obtain ⟨hc, htl⟩ := heq
      obtain ⟨hteq, hbeq⟩ := ih t' b1 b2
        (fun d hd => h1 d (List.mem_cons_of_mem c hd))
        (fun d hd => h2 d (List.mem_cons_of_mem c' hd)) htl
      subst hc; subst hteq; subst hbeq
      exact ⟨rfl, rfl⟩

theorem joinD_ne_nil (d : List Char) (ds : List (List Char)) (hd : d ≠ []) :
    joinD (d :: ds) ≠ [] := by
  cases ds with
  | nil => simpa [joinD] using hd
  | cons d2 ds2 => simp [joinD, hd]

theorem joinD_inj (ds1 : List (List Char)) :
    ∀ ds2, (∀ d ∈ ds1, d ≠ [] ∧ ∀ c ∈ d, c ≠ 'D') →
    (∀ d ∈ ds2, d ≠ [] ∧ ∀ c ∈ d, c ≠ 'D') →
    joinD ds1 = joinD ds2 → ds1 = ds2 := by
  induction ds1 with
  | nil =>
    intro ds2 _ h2 heq
    cases ds2 with
    | nil => rfl
    | cons d2 t2 =>
      exact absurd heq.symm (joinD_ne_nil d2 t2 (h2 d2 (List.mem_cons_self _ _)).1)
  | cons d1 t1 ih =>
    intro ds2 h1 h2 heq
    cases ds2 with
    | nil =>
      exact absurd heq (joinD_ne_nil d1 t1 (h1 d1 (List.mem_cons_self _ _)).1)
    | cons d2 t2 =>
      cases t1 with
      | nil =>
        cases t2 with
        | nil => simpa [joinD] using heq
        | cons d2' t2' =>
          have heq' : d1 = d2 ++ 'D' :: joinD (d2' :: t2') := heq
          have hmem : 'D' ∈ d1 := by
            rw [heq']
            exact List.mem_append_right _ (List.mem_cons_self _ _)
          exact absurd rfl ((h1 d1 (List.mem_cons_self _ _)).2 'D' hmem)
      | cons d1' t1' =>
        cases t2 with
        | nil =>
          have heq' : d1 ++ 'D' :: joinD (d1' :: t1') = d2 := heq
          have hmem : 'D' ∈ d2 := by
            rw [← heq']
            exact List.mem_append_right _ (List.mem_cons_self _ _)
          exact absurd rfl ((h2 d2 (List.mem_cons_self _ _)).2 'D' hmem)
        | cons d2' t2' =>
          have heq' : d1 ++ 'D' :: joinD (d1' :: t1') =
              d2 ++ 'D' :: joinD (d2' :: t2') := heq
          obtain ⟨hde, hje⟩ := append_sep_inj 'D' d1 d2 _ _
            (h1 d1 (List.mem_cons_self _ _)).2
            (h2 d2 (List.mem_cons_self _ _)).2 heq'
          have hteq := ih (d2' :: t2')
            (fun d hd => h1 d (List.mem_cons_of_mem d1 hd))
            (fun d hd => h2 d (List.mem_cons_of_mem d2 hd)) hje
          rw [hde, hteq]

theorem split_pfx_no_alnum (s : List Char) :
    ∀ c ∈ (SentenceSplit.split s).pfx, isAlnum c = false := by
  intro c hc
  have hmem : c ∈ s.takeWhile (fun c => !isAlnum c) := hc
  have := List.mem_takeWhile_imp hmem
  simpa using this

theorem split_suffix_no_alnum (s : List Char) :
    ∀ c ∈ (SentenceSplit.split s).suffix, isAlnum c = false := by
  intro c hc
  have hmem : c ∈ ((s.dropWhile (fun c => !isAlnum c)).reverse.takeWhile
      (fun c => !isAlnum c)).reverse := hc
  rw [List.mem_reverse] at hmem
  have := List.mem_takeWhile_imp hmem
  simpa using this

theorem alnum_not_mem_of_all_non (l : List Char) (x : Char)
    (hx : isAlnum x = true) (h : ∀ c ∈ l, isAlnum c = false) : ∀ c ∈ l, c ≠ x := by
  intro c hc habs
  subst habs
  rw [h c hc] at hx
  exact Bool.false_ne_true hx

theorem type_structure_iff (s1 s2 : List Char) :
    (SentenceSplit.split s1).type = (SentenceSplit.split s2).type ↔
    ((SentenceSplit.split s1).pfx = (SentenceSplit.split s2).pfx ∧
     (SentenceSplit.split s1).suffix = (SentenceSplit.split s2).suffix ∧
     (SentenceSplit.split s1).delimiters = (SentenceSplit.split s2).delimiters) := by
  constructor
  · intro heq
    have hS : isAlnum 'S' = true := by decide
    have hD : isAlnum 'D' = true := by decide
    unfold SentenceSplit.type at heq
    injection heq with hP heq
    obtain ⟨hpfx, hrest⟩ := append_sep_inj 'S' _ _ _ _
      (alnum_not_mem_of_all_non _ 'S' hS (split_pfx_no_alnum s1))
      (alnum_not_mem_of_all_non _ 'S' hS (split_pfx_no_alnum s2)) heq
    obtain ⟨hsuf, hjoin⟩ := append_sep_inj 'D' _ _ _ _
      (alnum_not_mem_of_all_non _ 'D' hD (split_suffix_no_alnum s1))
      (alnum_not_mem_of_all_non _ 'D' hD (split_suffix_no_alnum s2)) hrest
    refine ⟨hpfx, hsuf, ?_⟩
    refine joinD_inj _ _ ?_ ?_ hjoin
    · intro d hd
      obtain ⟨hne, hall⟩ := (split_invariants s1).2.2 d hd
      refine ⟨hne, alnum_not_mem_of_all_non d 'D' hD ?_⟩
      intro c hc
      have := List.all_eq_true.mp hall c hc
      simpa using this
    · intro d hd
      obtain ⟨hne, hall⟩ := (split_invariants s2).2.2 d hd
      refine ⟨hne, alnum_not_mem_of_all_non d 'D' hD ?_⟩
      intro c hc
      have := List.all_eq_true.mp hall c hc
      simpa using this
  · intro ⟨h1, h2, h3⟩
    unfold SentenceSplit.type
    rw [h1, h2, h3]

/-- C4: two tokenized records (as produced by `SentenceSplit.split`, which is
how `re_finder` builds them) receive the same grouping key `type` -- and are
therefore placed in the same group by `re_finder` -- exactly when their
prefix, suffix and delimiter sequences are value-equal; word content never
enters the key. -/
theorem split_type_eq_iff_structure_eq (s1 s2 : List Char) :
    (SentenceSplit.split s1).type = (SentenceSplit.split s2).type ↔
    ((SentenceSplit.split s1).pfx = (SentenceSplit.split s2).pfx ∧
     (SentenceSplit.split s1).suffix = (SentenceSplit.split s2).suffix ∧
     (SentenceSplit.split s1).delimiters = (SentenceSplit.split s2).delimiters) :=
  type_structure_iff s1 s2

/-- C5 counterexample: the records of `"!!!"` (zero words) and `"!!!a"`
(one word) receive the same type key, so `re_finder` puts them in one group
although their word counts differ. -/
theorem group_word_count_counterexample :
    (SentenceSplit.split (lstr "!!!")).type = (SentenceSplit.split (lstr "!!!a")).type ∧
    (SentenceSplit.split (lstr "!!!")).words_num = 0 ∧
    (SentenceSplit.split (lstr "!!!a")).words_num = 1 := by
  decide

/-- C5 (amended): two records with equal type keys whose word lists are both
non-empty have the same word count; equal delimiter sequences force equal
counts except in the degenerate zero-word/one-word case exhibited by the
counterexample. -/
theorem group_word_count_common (s1 s2 : List Char)
    (ht : (SentenceSplit.split s1).type = (SentenceSplit.split s2).type)
    (h1 : (SentenceSplit.split s1).words ≠ [])
    (h2 : (SentenceSplit.split s2).words ≠ []) :
    (SentenceSplit.split s1).words_num = (SentenceSplit.split s2).words_num := by
  have hd := ((type_structure_iff s1 s2).mp ht).2.2
  have hc1 := (split_invariants s1).1
  have hc2 := (split_invariants s2).1
  rw [if_neg (by simpa [List.isEmpty_iff] using h1)] at hc1
  rw [if_neg (by simpa [List.isEmpty_iff] using h2)] at hc2
  unfold SentenceSplit.words_num
  rw [hc1, hc2, hd]

theorem group_word_count_common_witness :
    (SentenceSplit.split (lstr "10 apples")).words_num =
      (SentenceSplit.split (lstr "15 apples")).words_num :=
  group_word_count_common _ _ (by decide) (by decide) (by decide)

theorem split_invariants_witness :
    lstr "10" ∈ (SentenceSplit.split (lstr "10 apples")).words ∧
    (lstr "10" ≠ [] ∧ (lstr "10").all isAlnum = true) :=
  ⟨by decide, (split_invariants (lstr "10 apples")).2.1 (lstr "10") (by decide)⟩
/-- Codepoint ranges of the characters `str.isspace()` accepts -- the
Unicode whitespace set that `str.rstrip()` with no argument strips. -/
def pySpaceRanges : List (Nat × Nat) :=
  [(9, 13), (28, 32), (133, 133), (160, 160), (5760, 5760), (8192, 8202),
   (8232, 8233), (8239, 8239), (8287, 8287), (12288, 12288)]

/-- Python `str.rstrip` whitespace test (Unicode whitespace). -/
def isPySpace (c : Char) : Bool :=
  pySpaceRanges.any (fun p => decide (p.1 ≤ c.toNat) && decide (c.toNat ≤ p.2))

/-- Model of Python `str.rstrip()` with no argument. -/
def pyRstrip (l : List Char) : List Char :=
  (l.reverse.dropWhile isPySpace).reverse

/-- Lookup of a single-character delimiter in `delimiter_priority_map`,
scanned in insertion order with substring membership, default 4. -/
def singleDelimPriority (c : Char) : Nat :=
  if c = '_' then 5
  else if c = ' ' then 4
  else if c = '.' then 3
  else if c = ',' || c = '!' || c = '?' || c = ':' || c = ';' then 2
  else if c = Char.ofNat 39 || c = Char.ofNat 34 || c = Char.ofNat 96 then 1
  else if c = '(' || c = ')' || c = '<' || c = '>' ||
    c = Char.ofNat 123 || c = Char.ofNat 125 then 0
  else 4

/-- Model of `SentenceSplit._delimiter_priority`. -/
def delimiterPriority (d : List Char) : Nat :=
  let d1 := pyRstrip d
  let d2 := if d1 = [] then [' '] else d1
  match d2 with
  | [c] => singleDelimPriority c
  | _ => 6

/-- Model of Python `max` on a list of naturals (0 on the empty list, where
Python raises `ValueError` -- callers guard non-emptiness). -/
def listMax : List Nat → Nat
  | [] => 0
  | x :: t => Nat.max x (listMax t)

/-- Index of the leftmost maximum, as computed by
`arr.index(max(arr))` in the source. -/
def idxOfMax : List Nat → Nat
  | [] => 0
  | x :: t => if listMax t ≤ x then 0 else idxOfMax t + 1

theorem idxOfMax_lt (l : List Nat) (h : l ≠ []) : idxOfMax l < l.length := by
  induction l with
  | nil => exact absurd rfl h
  | cons x t ih =>
    by_cases hx : listMax t ≤ x
    · simp [idxOfMax, hx]
    · have ht : t ≠ [] := by
        intro habs; subst habs; simp [listMax] at hx
      simp only [idxOfMax, if_neg hx, List.length_cons]
      exact Nat.succ_lt_succ (ih ht)

/-- One fusion step of `SentenceSplit.merge`: concatenate the two words
around the highest-priority delimiter (leftmost on ties) and remove it. -/
def mergeStep (sp : SentenceSplit) : SentenceSplit :=
  let i := idxOfMax (sp.delimiters.map delimiterPriority)
  let newWord := sp.words.getD i [] ++ sp.delimiters.getD i [] ++
    sp.words.getD (i + 1) []
  ⟨sp.pfx, sp.suffix,
    sp.words.take i ++ newWord :: sp.words.drop (i + 2),
    sp.delimiters.take i ++ sp.delimiters.drop (i + 1)⟩

/-- Fuel-driven recursion of `SentenceSplit.merge` (the source recurses
until the word count reaches the target). -/
def mergeAux : Nat → SentenceSplit → Nat → Option SentenceSplit
  | 0, _, _ => none
  | fuel + 1, sp, target =>
    if sp.words.length ≤ target then some sp
    else if sp.delimiters = [] then none
    else mergeAux fuel (mergeStep sp) target

/-- Model of `SentenceSplit.merge`.  `none` models the source raising:
the entry assertion `target_words_num > 0`, or `max` applied to an empty
delimiter list. -/
def SentenceSplit.merge (sp : SentenceSplit) (target : Nat) : Option SentenceSplit :=
  if target = 0 then none
  else mergeAux (sp.words.length + 1) sp target

/-- Well-formedness: the word/delimiter count relation guaranteed by
`SentenceSplit.split` (see `split_invariants`). -/
def SentenceSplit.wf (sp : SentenceSplit) : Prop :=
  sp.words.length = sp.delimiters.length + (if sp.words.isEmpty then 0 else 1)

theorem interleave_fuse : ∀ (i : Nat) (ws ds : List (List Char)),
    i < ds.length → ds.length + 1 = ws.length →
    interleave
      (ws.take i ++ (ws.getD i [] ++ ds.getD i [] ++ ws.getD (i + 1) []) ::
        ws.drop (i + 2))
      (ds.take i ++ ds.drop (i + 1)) = interleave ws ds := by
  intro i
  induction i with
  | zero =>
    intro ws ds hi hl
    rcases ds with _ | ⟨d, ds'⟩
    · simp at hi
    · rcases ws with _ | ⟨w0, ws1⟩
      · simp at hl
      · rcases ws1 with _ | ⟨w1, ws'⟩
        · simp at hl
        · simp only [List.take_zero, List.drop_succ_cons, List.drop_zero,
            List.getD_cons_zero, List.getD_cons_succ, List.nil_append]
          show interleave ((w0 ++ d ++ w1) :: ws') ds' =
            interleave (w0 :: w1 :: ws') (d :: ds')
          rcases ds' with _ | ⟨d1, ds''⟩
          · show (w0 ++ d ++ w1) ++ interleave ws' [] =
              w0 ++ d ++ interleave (w1 :: ws') []
            show (w0 ++ d ++ w1) ++ interleave ws' [] =
              w0 ++ d ++ (w1 ++ interleave ws' [])
            simp [List.append_assoc]
          · show (w0 ++ d ++ w1) ++ d1 ++ interleave ws' ds'' =
              w0 ++ d ++ interleave (w1 :: ws') (d1 :: ds'')
            show (w0 ++ d ++ w1) ++ d1 ++ interleave ws' ds'' =
              w0 ++ d ++ (w1 ++ d1 ++ interleave ws' ds'')
            simp [List.append_assoc]
  | succ i ih =>
    intro ws ds hi hl
    rcases ds with _ | ⟨d, ds'⟩
    · simp at hi
    · rcases ws with _ | ⟨w, ws'⟩
      · simp at hl
      · simp only [List.take_succ_cons, List.drop_succ_cons,
          List.getD_cons_succ, List.cons_append]
        show interleave (w :: (ws'.take i ++ _ :: ws'.drop (i + 2)))
            (d :: (ds'.take i ++ ds'.drop (i + 1))) =
          interleave (w :: ws') (d :: ds')
        show w ++ d ++ interleave (ws'.take i ++ _ :: ws'.drop (i + 2))
            (ds'.take i ++ ds'.drop (i + 1)) =
          w ++ d ++ interleave ws' ds'
        rw [ih ws' ds' (by simpa using hi) (by simpa using hl)]
instance (sp : SentenceSplit) : Decidable sp.wf := by
  unfold SentenceSplit.wf
  infer_instance

theorem mergeStep_spec (sp : SentenceSplit) (hwf : sp.wf) (hd : sp.delimiters ≠ []) :
    (mergeStep sp).wf ∧ (mergeStep sp).words.length + 1 = sp.words.length ∧
    (mergeStep sp).sentence = sp.sentence := by
  have hilt : idxOfMax (sp.delimiters.map delimiterPriority) < sp.delimiters.length := by
    have h1 := idxOfMax_lt (sp.delimiters.map delimiterPriority) (by simpa using hd)
    simpa using h1
  have hwne : sp.words.isEmpty = false := by
    rcases hw : sp.words with _ | ⟨w, ws⟩
    · exfalso
      apply hd
      apply List.length_eq_zero.mp
      unfold SentenceSplit.wf at hwf
      rw [hw] at hwf
      simp at hwf
      omega
    · simp
  have hlen : sp.words.length = sp.delimiters.length + 1 := by
    unfold SentenceSplit.wf at hwf
    rw [hwne] at hwf
    simpa using hwf
  have hwlen : (mergeStep sp).words.length + 1 = sp.words.length := by
    show (sp.words.take _ ++ _ :: sp.words.drop _).length + 1 = sp.words.length
    rw [List.length_append, List.length_cons, List.length_take, List.length_drop]
    omega
  have hdlen : (mergeStep sp).delimiters.length + 1 = sp.delimiters.length := by
    show (sp.delimiters.take _ ++ sp.delimiters.drop _).length + 1 =
      sp.delimiters.length
    rw [List.length_append, List.length_take, List.length_drop]
    omega
  refine ⟨?_, hwlen, ?_⟩
  · unfold SentenceSplit.wf
    have hne : (mergeStep sp).words.isEmpty = false := by
      have : 0 < (mergeStep sp).words.length := by omega
      rcases h : (mergeStep sp).words with _ | _
      · rw [h] at this; simp at this
      · simp
    rw [hne]
    simp only [Bool.false_eq_true, if_false]
    omega
  · unfold SentenceSplit.sentence
    have hpfx : (mergeStep sp).pfx = sp.pfx := rfl
    have hsuf : (mergeStep sp).suffix = sp.suffix := rfl
    rw [hpfx, hsuf]
    have hint := interleave_fuse (idxOfMax (sp.delimiters.map delimiterPriority))
      sp.words sp.delimiters hilt hlen.symm
    show sp.pfx ++ interleave (sp.words.take _ ++ _ :: sp.words.drop _)
        (sp.delimiters.take _ ++ sp.delimiters.drop _) ++ sp.suffix = _
    rw [hint]

theorem mergeAux_spec : ∀ (k fuel : Nat) (sp : SentenceSplit) (target : Nat),
    sp.wf → 1 ≤ target → sp.words.length = target + k → k < fuel →
    ∃ sp', mergeAux fuel sp target = some sp' ∧
      sp'.words.length = target ∧ sp'.sentence = sp.sentence := by
  intro k
  induction k with
  | zero =>
    intro fuel sp target _ _ hl hf
    rcases fuel with _ | f
    · omega
    · refine ⟨sp, ?_, by omega, rfl⟩
      show mergeAux (f + 1) sp target = some sp
      rw [mergeAux, if_pos (by omega)]
  | succ k ih =>
    intro fuel sp target hwf ht hl hf
    rcases fuel with _ | f
    · omega
    · have hgt : ¬ sp.words.length ≤ target := by omega
      have hdne : sp.delimiters ≠ [] := by
        intro habs
        have hb : sp.words.length ≤ sp.delimiters.length + 1 := by
          unfold SentenceSplit.wf at hwf
          split at hwf <;> omega
        rw [habs] at hb
        simp at hb
        omega
      obtain ⟨hwf', hlen', hsent'⟩ := mergeStep_spec sp hwf hdne
      obtain ⟨sp', heq, hl', hs'⟩ := ih f (mergeStep sp) target hwf' ht
        (by omega) (by omega)
      refine ⟨sp', ?_, hl', hs'.trans hsent'⟩
      show mergeAux (f + 1) sp target = some sp'
      rw [mergeAux, if_neg hgt, if_neg hdne]
      exact heq

/-- C8 counterexample: `merge` called with target word count 0 hits the
source's entry assertion (`assert target_words_num > 0`) and raises instead
of returning the record unchanged, although the record's word count (0) is
already at most the target. -/
theorem merge_target_zero_counterexample :
    (SentenceSplit.mk [] [] [] []).words.length ≤ 0 ∧
    SentenceSplit.merge (SentenceSplit.mk [] [] [] []) 0 = none := by
  decide

/-- C8 (amended): for a positive target and a well-formed record, `merge`
returns the record unchanged when its word count is at most the target;
otherwise it returns a record with exactly `target` words whose flattening
(prefix, words and delimiters interleaved, suffix) equals that of the
original, since each fusion concatenates word-delimiter-word literally. -/
theorem merge_spec (sp : SentenceSplit) (target : Nat)
    (hwf : sp.wf) (ht : 1 ≤ target) :
    (sp.words.length ≤ target → sp.merge target = some sp) ∧
    (target < sp.words.length →
      ∃ sp', sp.merge target = some sp' ∧ sp'.words_num = target ∧
        sp'.sentence = sp.sentence) := by
  constructor
  · intro hle
    unfold SentenceSplit.merge
    rw [if_neg (by omega)]
    rw [mergeAux, if_pos hle]
  · intro hlt
    unfold SentenceSplit.merge
    rw [if_neg (by omega)]
    obtain ⟨sp', h1, h2, h3⟩ := mergeAux_spec (sp.words.length - target)
      (sp.words.length + 1) sp target hwf ht (by omega) (by omega)
    exact ⟨sp', h1, h2, h3⟩

theorem merge_spec_witness :
    (SentenceSplit.split (lstr "a b c")).merge 5 =
        some (SentenceSplit.split (lstr "a b c")) ∧
    ∃ sp', (SentenceSplit.split (lstr "a b c")).merge 2 = some sp' ∧
      sp'.words_num = 2 ∧
      sp'.sentence = (SentenceSplit.split (lstr "a b c")).sentence :=
  ⟨(merge_spec _ 5 (by decide) (by decide)).1 (by decide),
   (merge_spec _ 2 (by decide) (by decide)).2 (by decide)⟩
/-- The characters escaped by Python 3.7+ `re.escape`. -/
def isReSpecial (c : Char) : Bool :=
  c = '(' || c = ')' || c = '[' || c = ']' ||
  c = Char.ofNat 123 || c = Char.ofNat 125 ||
  c = '?' || c = '*' || c = '+' || c = '-' || c = '|' || c = '^' || c = '$' ||
  c = '\\' || c = '.' || c = '&' || c = '~' || c = '#' || c = ' ' ||
  c = Char.ofNat 9 || c = Char.ofNat 10 || c = Char.ofNat 13 ||
  c = Char.ofNat 11 || c = Char.ofNat 12

/-- Model of `re.escape`: prepend a backslash to every special character. -/
def pyEscape (l : List Char) : List Char :=
  l.flatMap (fun c => if isReSpecial c then ['\\', c] else [c])

/-- The interleaving loop of `SentenceSplit.regex`: words are used verbatim
(they hold generated sub-patterns by the time this runs), delimiters are
literal-escaped. -/
def regexInterleave : List (List Char) → List (List Char) → List Char
  | [], _ => []
  | w :: ws, [] => w ++ regexInterleave ws []
  | w :: ws, d :: ds => w ++ pyEscape d ++ regexInterleave ws ds

/-- Model of `SentenceSplit.regex`: escaped prefix, words interleaved with
escaped delimiters, escaped suffix; an empty result renders as `()`. -/
def SentenceSplit.regex (sp : SentenceSplit) : List Char :=
  let a := if sp.pfx = [] then [] else pyEscape sp.pfx
  let b := regexInterleave sp.words sp.delimiters
  let c := if sp.suffix = [] then [] else pyEscape sp.suffix
  if a ++ b ++ c = [] then lstr "()" else a ++ b ++ c

/-- Codepoint ranges of the Unicode decimal digits (category Nd): exactly
the characters that Python's `\d` matches in a `str` pattern without
`re.ASCII`. -/
def ndDigitRanges : List (Nat × Nat) :=
  [(48, 57), (1632, 1641), (1776, 1785), (1984, 1993), (2406, 2415),
   (2534, 2543), (2662, 2671), (2790, 2799), (2918, 2927), (3046, 3055),
   (3174, 3183), (3302, 3311), (3430, 3439), (3558, 3567), (3664, 3673),
   (3792, 3801), (3872, 3881), (4160, 4169), (4240, 4249), (6112, 6121),
   (6160, 6169), (6470, 6479), (6608, 6617), (6784, 6793), (6800, 6809),
   (6992, 7001), (7088, 7097), (7232, 7241), (7248, 7257), (42528, 42537),
   (43216, 43225), (43264, 43273), (43472, 43481), (43504, 43513),
   (43600, 43609), (44016, 44025), (65296, 65305), (66720, 66729),
   (68912, 68921), (69734, 69743), (69872, 69881), (69942, 69951),
   (70096, 70105), (70384, 70393), (70736, 70745), (70864, 70873),
   (71248, 71257), (71360, 71369), (71472, 71481), (71904, 71913),
   (72016, 72025), (72784, 72793), (73040, 73049), (73120, 73129),
   (92768, 92777), (92864, 92873), (93008, 93017), (120782, 120831),
   (123200, 123209), (123632, 123641), (125264, 125273), (130032, 130041)]

/-- The character class `\d` of Python `re`: any Unicode decimal digit. -/
def isPyDigit (c : Char) : Bool :=
  ndDigitRanges.any (fun p => decide (p.1 ≤ c.toNat) && decide (c.toNat ≤ p.2))

def isLowerA (c : Char) : Bool := 'a' ≤ c && c ≤ 'z'

def isUpperA (c : Char) : Bool := 'A' ≤ c && c ≤ 'Z'

def isLetterA (c : Char) : Bool := isLowerA c || isUpperA c

/-- Body of `NUM_RE = ^[1-9]\d*$` (the tail `\d` accepts any Unicode
decimal digit). -/
def numBody : List Char → Bool
  | [] => false
  | c :: t => ('1' ≤ c && c ≤ '9') && t.all isPyDigit

/-- Body of `ZERO_LEADABLE_NUM_RE = ^\d+$` (`\d` accepts any Unicode
decimal digit). -/
def zeroNumBody (w : List Char) : Bool := !w.isEmpty && w.all isPyDigit

/-- Body of `LOWER_WORD_RE = ^[a-z]+$`. -/
def lowerBody (w : List Char) : Bool := !w.isEmpty && w.all isLowerA

/-- Body of `FIRST_UPPER_WORD_RE = ^[A-Z][a-z]*$`. -/
def firstUpperBody : List Char → Bool
  | [] => false
  | c :: t => isUpperA c && t.all isLowerA

/-- Body of `UPPER_WORD_RE = ^[A-Z]+$`. -/
def upperBody (w : List Char) : Bool := !w.isEmpty && w.all isUpperA

/-- Body of `MIX_WORD_RE = ^[a-zA-Z]+$`. -/
def mixBody (w : List Char) : Bool := !w.isEmpty && w.all isLetterA

/-- Body of `ALPHABETIC_NUMERIC_RE = ^[0-9a-zA-Z]+$`. -/
def alnumBody (w : List Char) : Bool := !w.isEmpty && w.all isAlnum

/-- Body of `OTHER_RE = ^.+$` (`.` does not match a newline). -/
def otherBody (w : List Char) : Bool :=
  !w.isEmpty && w.all (fun c => c != Char.ofNat 10)

/-- Python `re.match` of an anchored pattern `^body$`: `$` also matches just
before a single trailing newline. -/
def pyFullMatch (body : List Char → Bool) (w : List Char) : Bool :=
  body w || ((w.getLast? == some (Char.ofNat 10)) && body w.dropLast)

/-- Index (0-7) of the first of the eight shape regexes of
`WordClassfier.REs` that the word satisfies, in source order; `none` when
no regex matches. -/
def firstShapeIdx (w : List Char) : Option Nat :=
  if pyFullMatch numBody w then some 0
  else if pyFullMatch zeroNumBody w then some 1
  else if pyFullMatch lowerBody w then some 2
  else if pyFullMatch firstUpperBody w then some 3
  else if pyFullMatch upperBody w then some 4
  else if pyFullMatch mixBody w then some 5
  else if pyFullMatch alnumBody w then some 6
  else if pyFullMatch otherBody w then some 7
  else none

/-- The word-classification profile.  `card_map` (word to occurrence count)
and `re_map` (per shape index: match count, min word length, max word
length) are insertion-ordered association structures; `re_map` always holds
exactly eight entries, indexed like `WordClassfier.REs`. -/
structure WordClassfier where
  card_map : List (List Char × Nat)
  re_map : List (Nat × Nat × Nat)
  word_number : Nat
  words : List (List Char)
  deriving Repr, DecidableEq

/-- Model of `WordClassfier.__init__`. -/
def WordClassfier.init : WordClassfier :=
  ⟨[], List.replicate 8 (0, 10000000, 0), 0, []⟩

/-- Count-up of one word in the occurrence dictionary; an unseen key is
appended at the end (Python dicts keep insertion order). -/
def bumpCard : List (List Char × Nat) → List Char → List (List Char × Nat)
  | [], w => [(w, 1)]
  | (k, c) :: t, w => if k = w then (k, c + 1) :: t else (k, c) :: bumpCard t w

/-- Pointwise update of a list at one index. -/
def updAt : List α → Nat → (α → α) → List α
  | [], _, _ => []
  | x :: t, 0, f => f x :: t
  | x :: t, n + 1, f => x :: updAt t n f

/-- Model of `WordClassfier.put`: record the word, bump its occurrence
count, and bump the first matching shape bucket (count, min length, max
length). -/
def WordClassfier.put (wc : WordClassfier) (w : List Char) : WordClassfier :=
  let rm := match firstShapeIdx w with
    | none => wc.re_map
    | some k => updAt wc.re_map k (fun t =>
        (t.1 + 1, Nat.min t.2.1 w.length, Nat.max t.2.2 w.length))
  ⟨bumpCard wc.card_map w, rm, wc.word_number + 1, wc.words ++ [w]⟩

/-- Model of `WordClassfier.put_all`. -/
def WordClassfier.put_all (wc : WordClassfier) (ws : List (List Char)) : WordClassfier :=
  ws.foldl WordClassfier.put wc

/-- The eight regex bodies as rendered by shape mode: the source strips the
anchors and the trailing quantifier via `r[1:-2]`. -/
def shapeReBodies : List (List Char) :=
  [lstr "[1-9]\\d", lstr "\\d", lstr "[a-z]", lstr "[A-Z][a-z]", lstr "[A-Z]",
   lstr "[a-zA-Z]", lstr "[0-9a-zA-Z]", lstr "."]

/-- Model of `WordClassfier.RE_BASIC_LENS`. -/
def reBasicLens : List Nat := [1, 0, 0, 1, 0, 0, 0, 0]

def natToChars (n : Nat) : List Char := (Nat.repr n).toList

/-- Length-quantifier rendering of one occupied shape bucket: `?` for
`{0,1}`, `{,max}` when the minimum is zero, else `{min,max}`. -/
def renderShape (body : List Char) (minL maxL : Nat) : List Char :=
  if minL = 0 then
    if maxL = 1 then body ++ ['?']
    else body ++ [Char.ofNat 123, ','] ++ natToChars maxL ++ [Char.ofNat 125]
  else body ++ [Char.ofNat 123] ++ natToChars minL ++ [','] ++
    natToChars maxL ++ [Char.ofNat 125]

/-- Model of `"|".join`. -/
def joinBar : List (List Char) → List Char
  | [] => []
  | [x] => x
  | x :: xs => x ++ '|' :: joinBar xs

/-- Shape mode (`WordClassfier.regex` with `enum=False`): render every
occupied bucket with its body and observed length range adjusted by the
basic length, joined by `|` in priority order. -/
def wcRegexFalse (wc : WordClassfier) : List Char :=
  joinBar ((List.range 8).filterMap (fun i =>
    let t := wc.re_map.getD i (0, 10000000, 0)
    if 0 < t.1 then
      some (renderShape (shapeReBodies.getD i [])
        (t.2.1 - reBasicLens.getD i 0) (t.2.2 - reBasicLens.getD i 0))
    else none))

/-- Escape one enumerated literal, wrapping it in a group when the escaped
form still contains the alternation metacharacter. -/
def escWrap (e : List Char) : List Char :=
  let r := pyEscape e
  if '|' ∈ r then '(' :: (r ++ [')']) else r

/-- Enumeration mode (`WordClassfier.regex` with `enum=True`): a full
literal alternation when at most `ENUM_NUM = 10` distinct words exist;
otherwise enumerate the words whose frequency ratio exceeds
`ENUM_RATIO_THRESHOLD = 0.1` (the float comparison `cnt/n > 0.1` is
modelled exactly as the rational comparison `10*cnt > n`) and classify the
rest in shape mode; with no high-frequency word, fall back to shape mode
over all words. -/
def wcRegexTrue (wc : WordClassfier) : List Char :=
  if wc.card_map.length ≤ 10 then
    '(' :: (joinBar (wc.card_map.map (fun p => escWrap p.1)) ++ [')'])
  else
    let enums := (wc.card_map.filter
      (fun p => wc.word_number < 10 * p.2)).map Prod.fst
    if enums = [] then wcRegexFalse wc
    else
      let remain := WordClassfier.init.put_all
        (wc.words.filter (fun w => !(enums.contains w)))
      let enumRe := '(' :: (joinBar (enums.map escWrap) ++ [')'])
      '(' :: (enumRe ++ '|' :: wcRegexFalse remain ++ [')'])

/-- Model of `WordClassfier.regex`. -/
def WordClassfier.regex (wc : WordClassfier) (enum : Bool) : List Char :=
  if enum then wcRegexTrue wc else wcRegexFalse wc
/-- First-occurrence-ordered list of distinct words, as the keys of a
Python dict filled by repeated insertion. -/
def distinctWords (ws : List (List Char)) : List (List Char) :=
  ws.foldl (fun ks w => if w ∈ ks then ks else ks ++ [w]) []

theorem bumpCard_keys (m : List (List Char × Nat)) (w : List Char) :
    (bumpCard m w).map Prod.fst =
      if w ∈ m.map Prod.fst then m.map Prod.fst else m.map Prod.fst ++ [w] := by
  induction m with
  | nil => simp [bumpCard]
  | cons p t ih =>
    obtain ⟨k, c⟩ := p
    by_cases hk : k = w
    · subst hk
      simp [bumpCard]
    · simp only [bumpCard, if_neg hk, List.map_cons, ih]
      by_cases hmem : w ∈ t.map Prod.fst
      · rw [if_pos hmem, if_pos (by simp [hmem])]
      · rw [if_neg hmem, if_neg (by simp [hmem, Ne.symm hk]), List.cons_append]

theorem put_all_card_keys (ws : List (List Char)) : ∀ (wc : WordClassfier),
    ((wc.put_all ws).card_map.map Prod.fst) =
      ws.foldl (fun ks w => if w ∈ ks then ks else ks ++ [w])
        (wc.card_map.map Prod.fst) := by
  induction ws with
  | nil => intro wc; rfl
  | cons w ws ih =>
    intro wc
    show ((wc.put w).put_all ws).card_map.map Prod.fst = _
    rw [ih]
    have hcard : (wc.put w).card_map = bumpCard wc.card_map w := rfl
    rw [List.foldl_cons, hcard, bumpCard_keys]

theorem init_card_keys (ws : List (List Char)) :
    (WordClassfier.init.put_all ws).card_map.map Prod.fst = distinctWords ws :=
  put_all_card_keys ws WordClassfier.init

theorem bumpCard_notmem (m : List (List Char × Nat)) (w : List Char)
    (h : w ∉ m.map Prod.fst) : bumpCard m w = m ++ [(w, 1)] := by
  induction m with
  | nil => rfl
  | cons p t ih =>
    obtain ⟨k, c⟩ := p
    have hk : k ≠ w := by
      intro habs; subst habs
      exact h (by simp)
    simp only [bumpCard, if_neg hk, List.cons_append]
    rw [ih (by intro habs; exact h (by simp [habs]))]

theorem foldl_bumpCard_nodup (ws : List (List Char)) :
    ∀ (m : List (List Char × Nat)), ws.Nodup →
    (∀ w ∈ ws, w ∉ m.map Prod.fst) →
    ws.foldl bumpCard m = m ++ ws.map (fun w => (w, 1)) := by
  induction ws with
  | nil => intro m _ _; simp
  | cons w ws ih =>
    intro m hnd hmem
    rw [List.foldl_cons, bumpCard_notmem m w (hmem w (by simp))]
    rw [ih (m ++ [(w, 1)]) (List.Nodup.of_cons hnd) ?_]
    · simp
    · intro v hv
      have h2 := hmem v (List.mem_cons_of_mem w hv)
      intro habs
      rw [List.map_append] at habs
      rcases List.mem_append.mp habs with h1 | h1
      · exact h2 h1
      · simp at h1
        subst h1
        exact (List.nodup_cons.mp hnd).1 hv

theorem put_all_card (ws : List (List Char)) : ∀ (wc : WordClassfier),
    (wc.put_all ws).card_map = ws.foldl bumpCard wc.card_map := by
  induction ws with
  | nil => intro wc; rfl
  | cons w ws ih =>
    intro wc
    show ((wc.put w).put_all ws).card_map = _
    rw [ih]
    rfl

theorem put_all_word_number (ws : List (List Char)) : ∀ (wc : WordClassfier),
    (wc.put_all ws).word_number = wc.word_number + ws.length := by
  induction ws with
  | nil => intro wc; simp [WordClassfier.put_all]
  | cons w ws ih =>
    intro wc
    show ((wc.put w).put_all ws).word_number = _
    rw [ih]
    show wc.word_number + 1 + ws.length = _
    simp [List.length_cons]
    omega

theorem distinct_le_length (ws : List (List Char)) :
    (distinctWords ws).length ≤ ws.length := by
  have h : ∀ (l : List (List Char)) (acc : List (List Char)),
      (l.foldl (fun ks w => if w ∈ ks then ks else ks ++ [w]) acc).length ≤
        acc.length + l.length := by
    intro l
    induction l with
    | nil => intro acc; simp
    | cons w t ih =>
      intro acc
      rw [List.foldl_cons]
      by_cases hmem : w ∈ acc
      · rw [if_pos hmem]
        calc _ ≤ acc.length + t.length := ih acc
          _ ≤ acc.length + (w :: t).length := by
            simp only [List.length_cons]; omega
      · rw [if_neg hmem]
        calc _ ≤ (acc ++ [w]).length + t.length := ih (acc ++ [w])
          _ = acc.length + (w :: t).length := by
            simp only [List.length_append, List.length_cons, List.length_nil]
            omega
  simpa using h ws []

/-- C6: with at most `ENUM_NUM = 10` distinct words, enumeration mode
renders a pure literal alternation of exactly the distinct words in first
occurrence order, each literal-escaped (and wrapped when the escape still
contains `|`); with 11 pairwise-distinct (hence equally frequent) words no
frequency ratio exceeds `ENUM_RATIO_THRESHOLD = 0.1`, so the classifier
falls back to shape mode over all the words. -/
theorem wordclassfier_enum_threshold :
    (∀ ws : List (List Char), (distinctWords ws).length ≤ 10 →
      (WordClassfier.init.put_all ws).regex true =
        '(' :: (joinBar ((distinctWords ws).map escWrap) ++ [')'])) ∧
    (∀ ws : List (List Char), ws.Nodup → ws.length = 11 →
      (WordClassfier.init.put_all ws).regex true =
        (WordClassfier.init.put_all ws).regex false) := by
  constructor
  · intro ws h
    have hkeys := init_card_keys ws
    have hlen : (WordClassfier.init.put_all ws).card_map.length ≤ 10 := by
      have h2 := congrArg List.length hkeys
      rw [List.length_map] at h2
      omega
    show wcRegexTrue _ = _
    unfold wcRegexTrue
    rw [if_pos hlen]
    have hmap : (WordClassfier.init.put_all ws).card_map.map (fun p => escWrap p.1) =
        (distinctWords ws).map escWrap := by
      rw [← hkeys, List.map_map]
      rfl
    rw [hmap]
  · intro ws hnd hlen
    have hcard : (WordClassfier.init.put_all ws).card_map =
        ws.map (fun w => (w, 1)) := by
      rw [put_all_card]
      have := foldl_bumpCard_nodup ws [] hnd (by simp)
      simpa using this
    have hwn : (WordClassfier.init.put_all ws).word_number = 11 := by
      rw [put_all_word_number]
      show 0 + ws.length = 11
      omega
    show wcRegexTrue _ = wcRegexFalse _
    unfold wcRegexTrue
    rw [if_neg (by rw [hcard]; simp [hlen])]
    have hfilter : ((WordClassfier.init.put_all ws).card_map.filter
        (fun p => (WordClassfier.init.put_all ws).word_number < 10 * p.2)) = [] := by
      rw [hcard, hwn]
      apply List.filter_eq_nil_iff.mpr
      intro p hp
      obtain ⟨w, _, hw⟩ := List.mem_map.mp hp
      subst hw
      simp
    rw [hfilter]
    simp
theorem wordclassfier_enum_threshold_witness :
    ((WordClassfier.init.put_all [lstr "a", lstr "b"]).regex true =
      '(' :: (joinBar ((distinctWords [lstr "a", lstr "b"]).map escWrap) ++ [')'])) ∧
    ((WordClassfier.init.put_all [lstr "a", lstr "b", lstr "c", lstr "d",
        lstr "e", lstr "f", lstr "g", lstr "h", lstr "i", lstr "j",
        lstr "k"]).regex true =
      (WordClassfier.init.put_all [lstr "a", lstr "b", lstr "c", lstr "d",
        lstr "e", lstr "f", lstr "g", lstr "h", lstr "i", lstr "j",
        lstr "k"]).regex false) :=
  ⟨wordclassfier_enum_threshold.1 _ (by decide),
   wordclassfier_enum_threshold.2 _ (by decide) (by decide)⟩

/-- The per-bucket match count of a classification profile. -/
def countAt (wc : WordClassfier) (i : Nat) : Nat :=
  (wc.re_map.getD i (0, 0, 0)).1

theorem getD_updAt {α : Type} : ∀ (l : List α) (k : Nat) (f : α → α) (i : Nat) (d : α),
    (updAt l k f).getD i d =
      if i = k ∧ k < l.length then f (l.getD i d) else l.getD i d := by
  intro l
  induction l with
  | nil =>
    intro k f i d
    simp [updAt]
  | cons x t ih =>
    intro k f i d
    rcases k with _ | m
    · rcases i with _ | j
      · simp [updAt]
      · simp [updAt]
    · rcases i with _ | j
      · simp [updAt]
      · simp only [updAt, List.getD_cons_succ, List.length_cons]
        rw [ih m f j d]
        by_cases hc : j = m ∧ m < t.length
        · rw [if_pos hc, if_pos (by omega)]
        · rw [if_neg hc, if_neg (by omega)]

theorem firstShapeIdx_some_of_other (w : List Char)
    (h : pyFullMatch otherBody w = true) :
    ∃ k, firstShapeIdx w = some k ∧ k < 8 := by
  unfold firstShapeIdx
  by_cases h0 : pyFullMatch numBody w = true
  · rw [if_pos h0]; exact ⟨0, rfl, by omega⟩
  · rw [if_neg h0]
    by_cases h1 : pyFullMatch zeroNumBody w = true
    · rw [if_pos h1]; exact ⟨1, rfl, by omega⟩
    · rw [if_neg h1]
      by_cases h2 : pyFullMatch lowerBody w = true
      · rw [if_pos h2]; exact ⟨2, rfl, by omega⟩
      · rw [if_neg h2]
        by_cases h3 : pyFullMatch firstUpperBody w = true
        · rw [if_pos h3]; exact ⟨3, rfl, by omega⟩
        · rw [if_neg h3]
          by_cases h4 : pyFullMatch upperBody w = true
          · rw [if_pos h4]; exact ⟨4, rfl, by omega⟩
          · rw [if_neg h4]
            by_cases h5 : pyFullMatch mixBody w = true
            · rw [if_pos h5]; exact ⟨5, rfl, by omega⟩
            · rw [if_neg h5]
              by_cases h6 : pyFullMatch alnumBody w = true
              · rw [if_pos h6]; exact ⟨6, rfl, by omega⟩
              · rw [if_neg h6]
                rw [if_pos h]
                exact ⟨7, rfl, by omega⟩

/-- C7 (amended): every word that matches at least one of the eight shape
regexes -- in particular every non-empty word without a newline character,
which the fallback `^.+$` accepts -- is counted into exactly one shape
bucket, namely the first matching shape in the fixed priority order; words
matching no shape (such as the empty word or a lone newline) are counted
nowhere.  Moreover "Apple" lands in bucket 3, the capitalized shape
`^[A-Z][a-z]*$`, not in the broader mixed-case (5) or letters buckets. -/
theorem put_first_shape_bucket :
    (∀ (wc : WordClassfier) (w : List Char), wc.re_map.length = 8 →
      w ≠ [] → (∀ c ∈ w, c ≠ Char.ofNat 10) →
      ∃ k, firstShapeIdx w = some k ∧ k < 8 ∧
        countAt (wc.put w) k = countAt wc k + 1 ∧
        ∀ i, i ≠ k → countAt (wc.put w) i = countAt wc i) ∧
    firstShapeIdx (lstr "Apple") = some 3 := by
  constructor
  · intro wc w hlen hne hnl
    have hother : pyFullMatch otherBody w = true := by
      unfold pyFullMatch
      have hbody : otherBody w = true := by
        unfold otherBody
        rw [Bool.and_eq_true]
        constructor
        · rcases w with _ | _
          · exact absurd rfl hne
          · simp
        · rw [List.all_eq_true]
          intro c hc
          simpa using hnl c hc
      rw [hbody]
      simp
    obtain ⟨k, hk, hk8⟩ := firstShapeIdx_some_of_other w hother
    have hre : (wc.put w).re_map = updAt wc.re_map k (fun t =>
        (t.1 + 1, Nat.min t.2.1 w.length, Nat.max t.2.2 w.length)) := by
      unfold WordClassfier.put
      rw [hk]
    refine ⟨k, hk, hk8, ?_, ?_⟩
    · unfold countAt
      rw [hre, getD_updAt, if_pos ⟨rfl, by omega⟩]
    · intro i hik
      unfold countAt
      rw [hre, getD_updAt, if_neg (by intro hc; exact hik hc.1)]
  · decide

theorem put_first_shape_bucket_witness :
    ∃ k, firstShapeIdx (lstr "Apple") = some k ∧ k < 8 ∧
      countAt (WordClassfier.init.put (lstr "Apple")) k =
        countAt WordClassfier.init k + 1 ∧
      ∀ i, i ≠ k → countAt (WordClassfier.init.put (lstr "Apple")) i =
        countAt WordClassfier.init i :=
  put_first_shape_bucket.1 WordClassfier.init (lstr "Apple")
    (by decide) (by decide) (by decide)

/-- C7 counterexample: the word consisting of a single newline is non-empty
but matches none of the eight shape regexes (the fallback `^.+$` fails
because `.` does not match a newline), so `put` counts it into no shape
bucket at all, while still recording it in the occurrence map. -/
theorem put_newline_no_bucket :
    lstr "\n" ≠ [] ∧
    firstShapeIdx (lstr "\n") = none ∧
    (WordClassfier.init.put (lstr "\n")).re_map.map (fun t => t.1) =
      List.replicate 8 0 ∧
    (WordClassfier.init.put (lstr "\n")).word_number = 1 := by
  decide
/-- Insert one tokenized record into the group dictionary keyed by its type
(append to an existing key's list, else append a new key at the end, as a
Python dict does). -/
def addToGroup (m : List (List Char × List SentenceSplit)) (t : List Char)
    (sp : SentenceSplit) : List (List Char × List SentenceSplit) :=
  match m with
  | [] => [(t, [sp])]
  | (k, l) :: rest =>
    if k = t then (k, l ++ [sp]) :: rest else (k, l) :: addToGroup rest t sp

/-- The grouping loop of `re_finder`: tokenize every sentence and partition
the records by type key, in insertion order. -/
def buildGroups (ss : List (List Char)) : List (List Char × List SentenceSplit) :=
  ss.foldl (fun m s =>
    let sp := SentenceSplit.split s
    addToGroup m sp.type sp) []

/-- The per-group body of `re_finder`: take the word count of the group's
first record, classify the words of each position across the group's
records, and render the group skeleton with the generated fragments in the
word slots.  (The source indexes `split.words[words_index]`, which raises
when a later record has fewer words; the model reads `[]` there instead.) -/
def groupRegex (splits : List SentenceSplit) : List Char :=
  let one := splits.headD ⟨[], [], [], []⟩
  let reWords := (List.range one.words_num).map (fun i =>
    (WordClassfier.init.put_all
      (splits.map (fun sp => sp.words.getD i []))).regex true)
  SentenceSplit.regex ⟨one.pfx, one.suffix, reWords, one.delimiters⟩

/-- Wrap a group pattern in a (capturing) group whenever it contains the
alternation metacharacter anywhere, as `re_finder` does. -/
def wrapBar (p : List Char) : List Char :=
  if '|' ∈ p then '(' :: (p ++ [')']) else p

/-- Model of `re_finder`: the `|`-union of the per-group patterns, anchored
as `^( ... )$`. -/
def reFinder (ss : List (List Char)) : List Char :=
  lstr "^(" ++ joinBar ((buildGroups ss).map (fun g => wrapBar (groupRegex g.2))) ++
    lstr ")$"

/-- Regular expressions over the fragment language that the generator emits
for the inputs relevant here: literals, concatenation and alternation. -/
inductive RE where
  | emp : RE
  | eps : RE
  | chr : Char → RE
  | seq : RE → RE → RE
  | alt : RE → RE → RE
  deriving Repr, DecidableEq

/-- Whether the expression accepts the empty string. -/
def RE.nullable : RE → Bool
  | .emp => false
  | .eps => true
  | .chr _ => false
  | .seq a b => a.nullable && b.nullable
  | .alt a b => a.nullable || b.nullable

/-- Brzozowski derivative. -/
def RE.deriv : RE → Char → RE
  | .emp, _ => .emp
  | .eps, _ => .emp
  | .chr c, x => if c = x then .eps else .emp
  | .seq a b, x =>
    if a.nullable then .alt (.seq (a.deriv x) b) (b.deriv x)
    else .seq (a.deriv x) b
  | .alt a b, x => .alt (a.deriv x) (b.deriv x)

/-- Whole-string matching by iterated derivatives. -/
def reMatches (r : RE) (s : List Char) : Bool :=
  (s.foldl RE.deriv r).nullable

mutual

/-- Recursive-descent parser, alternation level (`a|b|c`).  The fuel only
drives structural recursion. -/
def parseAlt : Nat → List Char → Option (RE × List Char)
  | 0, _ => none
  | f + 1, l => do
    let (r1, rest) ← parseCat f l
    match rest with
    | '|' :: rest2 => do
      let (r2, rest3) ← parseAlt f rest2
      pure (RE.alt r1 r2, rest3)
    | _ => pure (r1, rest)

/-- Concatenation level: a run of atoms up to `|`, `)` or the end. -/
def parseCat : Nat → List Char → Option (RE × List Char)
  | 0, _ => none
  | f + 1, l =>
    match l with
    | [] => some (RE.eps, [])
    | ')' :: _ => some (RE.eps, l)
    | '|' :: _ => some (RE.eps, l)
    | _ => do
      let (a, rest) ← parseAtom f l
      let (b, rest2) ← parseCat f rest
      pure (RE.seq a b, rest2)

/-- Atom level: a parenthesized group, an escaped literal, or a plain
literal.  Unsupported metacharacters make the parser fail. -/
def parseAtom : Nat → List Char → Option (RE × List Char)
  | 0, _ => none
  | f + 1, l =>
    match l with
    | '(' :: rest => do
      let (r, rest2) ← parseAlt f rest
      match rest2 with
      | ')' :: rest3 => pure (r, rest3)
      | _ => none
    | '\\' :: c :: rest => some (RE.chr c, rest)
    | c :: rest =>
      if c = '[' || c = ']' || c = Char.ofNat 123 || c = Char.ofNat 125 ||
          c = '?' || c = '*' || c = '+' || c = '.' || c = '^' || c = '$' ||
          c = Char.ofNat 92 then none
      else some (RE.chr c, rest)
    | [] => none

end

/-- Parse a complete pattern fragment (no anchors). -/
def parseRegex (l : List Char) : Option RE :=
  match parseAlt (4 * l.length + 8) l with
  | some (r, []) => some r
  | _ => none

/-- Model of Python `re.match(pattern, s)` in full-string mode for the
anchored patterns `^...$` that `re_finder` returns, on newline-free
subject strings: `some true` means the whole subject matches. -/
def pyMatchFull (pat s : List Char) : Option Bool :=
  match pat with
  | '^' :: rest =>
    if rest.getLast? = some '$' then
      match parseRegex rest.dropLast with
      | some r => some (reMatches r s)
      | none => none
    else none
  | _ => none

/-- Substring containment test. -/
def containsSub (l pat : List Char) : Bool :=
  l.tails.any (fun t => pat.isPrefixOf t)
/-- C1: evaluation of `re_finder` at the failing input `["!!!", "!!!a"]`:
the two records share one group (see `group_word_count_counterexample`) and
the group pattern is taken from the zero-word first record, so the produced
pattern `^(!!!)$` fails to full-match the input `"!!!a"`, contradicting the
coverage property that the driver's own verification loop checks.  The
spec's concrete example, in contrast, is fully covered: each of the six
example inputs full-matches the produced pattern. -/
theorem reFinder_coverage_failure :
    reFinder [lstr "!!!", lstr "!!!a"] = lstr "^(!!!)$" ∧
    pyMatchFull (reFinder [lstr "!!!", lstr "!!!a"]) (lstr "!!!a") = some false ∧
    pyMatchFull (reFinder [lstr "!!!", lstr "!!!a"]) (lstr "!!!") = some true ∧
    ([lstr "apple", lstr "banana", lstr "$100", lstr "$200",
      lstr "10 apples", lstr "15 apples"].map (fun s =>
        pyMatchFull
          (reFinder [lstr "apple", lstr "banana", lstr "$100", lstr "$200",
            lstr "10 apples", lstr "15 apples"]) s)) =
      List.replicate 6 (some true) := by
  decide

/-- C9 counterexample: on eleven one-word inputs with no high-frequency
word the classifier falls back to shape mode and hands `re_finder` the
group pattern `[1-9]\d{,0}|[a-z]{1,1}`, which contains an un-parenthesized
alternation; `re_finder` wraps it in a plain capturing group `( ... )`, not
in a non-capturing group -- the returned pattern contains no `(?:` at all. -/
theorem wrap_not_noncapturing_counterexample :
    groupRegex ((buildGroups [lstr "a", lstr "b", lstr "c", lstr "d",
      lstr "e", lstr "f", lstr "g", lstr "h", lstr "i", lstr "j",
      lstr "1"]).headD ([], [])).2 =
      lstr "[1-9]\\d\x7b,0\x7d|[a-z]\x7b1,1\x7d" ∧
    reFinder [lstr "a", lstr "b", lstr "c", lstr "d", lstr "e", lstr "f",
      lstr "g", lstr "h", lstr "i", lstr "j", lstr "1"] =
      lstr "^(([1-9]\\d\x7b,0\x7d|[a-z]\x7b1,1\x7d))$" ∧
    containsSub (reFinder [lstr "a", lstr "b", lstr "c", lstr "d", lstr "e",
      lstr "f", lstr "g", lstr "h", lstr "i", lstr "j", lstr "1"])
      (lstr "(?:") = false := by
  decide

/-- C9 (amended): the value `re_finder` returns is always the `|`-union of
the per-group patterns wrapped once in an enclosing group and anchored,
`^( ... )$`; a group pattern containing the `|` character anywhere (whether
or not the alternation is already parenthesized) is wrapped in a plain
capturing group `( ... )` before entering the union. -/
theorem reFinder_shape (ss : List (List Char)) :
    ∃ ps : List (List Char),
      reFinder ss = lstr "^(" ++ joinBar (ps.map wrapBar) ++ lstr ")$" ∧
      ∀ q ∈ ps.map wrapBar, '|' ∈ q →
        q.head? = some '(' ∧ q.getLast? = some ')' := by
  refine ⟨(buildGroups ss).map (fun g => groupRegex g.2), ?_, ?_⟩
  · unfold reFinder
    rw [List.map_map]
    rfl
  · intro q hq hbar
    obtain ⟨p, _, hq2⟩ := List.mem_map.mp hq
    by_cases hmem : '|' ∈ p
    · have hqv : q = '(' :: (p ++ [')']) := by
        rw [← hq2]; unfold wrapBar; rw [if_pos hmem]
      subst hqv
      refine ⟨rfl, ?_⟩
      show (('(' :: p) ++ [')']).getLast? = some ')'
      rw [List.getLast?_append_of_ne_nil _ (by simp)]
      rfl
    · have hqv : q = p := by
        rw [← hq2]; unfold wrapBar; rw [if_neg hmem]
      subst hqv
      exact absurd hbar hmem

/-- C10: `re_finder` is deterministic -- equal input sequences give
byte-identical patterns.  (Every stage of the model is a pure function;
the group dictionary follows insertion order.  The set of high-frequency
enumeration candidates in partial-enumeration mode, a Python `set`, is
modelled in insertion order too.) -/
theorem reFinder_deterministic (xs ys : List (List Char)) (h : xs = ys) :
    reFinder xs = reFinder ys := by
  rw [h]

theorem reFinder_deterministic_witness :
    reFinder [lstr "apple", lstr "10 apples"] =
      reFinder [lstr "apple", lstr "10 apples"] :=
  reFinder_deterministic _ _ rfl

theorem reFinder_shape_witness :
    ∃ ps : List (List Char),
      reFinder [lstr "apple", lstr "banana"] =
        lstr "^(" ++ joinBar (ps.map wrapBar) ++ lstr ")$" ∧
      ∀ q ∈ ps.map wrapBar, '|' ∈ q →
        q.head? = some '(' ∧ q.getLast? = some ')' :=
  reFinder_shape [lstr "apple", lstr "banana"]
